import Mathlib

/-
Verification of src/containers/two_level_array.hpp (rethinkdb).

The header defines two class templates over a value type `value_t` and the
compile-time size_t parameters `max_size` and `chunk_size`:

  * `two_level_array_t` (shrinking variant): `get` / `set`, with a per-chunk
    `count` of truthy slots; a chunk whose count drops to zero is deleted.
  * `two_level_nevershrink_array_t`: `operator[]` returning a mutable
    reference; chunks are allocated on first access and never freed.

The embedding below is a direct functional translation.  size_t arithmetic
is modelled as Nat with explicit reduction modulo `W = 2 ^ 64` at the points
where the C++ code can wrap (the `--count` / `++count` updates and the
`max_size / chunk_size + 1` constant).  The `rassert` in `chunk_for_key` is
modelled by returning `none` (an aborted computation) from the operations.

The value-type contract stated in the header (value_t() is the unique falsy
value, every other value is truthy) makes the C++ boolean test `if (value)`
coincide with `value ≠ value_t()`; we model `value_t` as a type `α` with
`[Inhabited α]` (the default constructor) and `[DecidableEq α]`, and
truthiness as inequality with `default`.

Keys are modelled as size_t values (Nat), following the public signatures
`get(size_t key)` / `set(size_t key, ...)` / `operator[](size_t key)` and the
spec.  (The private helpers `chunk_for_key(key_t key)` declare their
parameter as `key_t`, a type no header in the repository defines; the spec
describes a uniform size_t key space, which is what is embedded here.)
-/

namespace TwoLevelArray

/-- Number of values of the 64-bit `size_t` type: its arithmetic wraps mod `W`. -/
def W : Nat := 2 ^ 64

/-- The compile-time template parameters `max_size` and `chunk_size`. -/
structure Config where
  max_size : Nat
  chunk_size : Nat
deriving DecidableEq

/-- `static const size_t num_chunks = max_size / chunk_size + 1;` (size_t arithmetic). -/
def Config.num_chunks (c : Config) : Nat :=
  (c.max_size / c.chunk_size + 1) % W

/-- `chunk_for_key`: computes `key / chunk_size` and asserts it is `< num_chunks`;
the failed `rassert` (a fatal abort) is modelled as `none`. -/
def Config.chunk_for_key (c : Config) (key : Nat) : Option Nat :=
  if key / c.chunk_size < c.num_chunks then some (key / c.chunk_size) else none

/-- `index_for_key`: `key % chunk_size`. -/
def Config.index_for_key (c : Config) (key : Nat) : Nat :=
  key % c.chunk_size

/-- Truthiness of a value under the documented value-type contract:
`bool(value_t()) == false` and every other value converts to `true`,
so `if (value)` tests exactly `value ≠ value_t()`. -/
def truthy {α : Type} [Inhabited α] [DecidableEq α] (v : α) : Bool :=
  decide (v ≠ default)

/-- `two_level_array_t::chunk_t`: a `count` (size_t) and a `values` array of
`chunk_size` slots (modelled as a list of that length). -/
structure Chunk (α : Type) where
  count : Nat
  values : List α
deriving DecidableEq

/-- `chunk_t()` : count 0 and every slot default-initialized. -/
def Chunk.mk0 (α : Type) [Inhabited α] (c : Config) : Chunk α :=
  ⟨0, List.replicate c.chunk_size default⟩

/-- Lines 90-96 of `set`, acting on one chunk: decrement `count` if the old
slot is truthy, overwrite the slot, increment `count` if the new value is
truthy.  `--`/`++` on the size_t `count` wrap modulo `W`. -/
def Chunk.write {α : Type} [Inhabited α] [DecidableEq α]
    (ch : Chunk α) (idx : Nat) (value : α) : Chunk α :=
  let c1 : Nat :=
    if truthy (ch.values.getD idx default) then (ch.count + (W - 1)) % W else ch.count
  let vs : List α := ch.values.set idx value
  let c2 : Nat := if truthy value then (c1 + 1) % W else c1
  ⟨c2, vs⟩

/-- The state of a `two_level_array_t`: the outer table of chunk handles
(`chunk_t **chunks`); `none` models a NULL handle. -/
structure TLA (α : Type) where
  chunks : List (Option (Chunk α))
deriving DecidableEq

/-- The constructor: a `num_chunks`-sized table, every handle NULL. -/
def TLA.init (α : Type) [Inhabited α] (c : Config) : TLA α :=
  ⟨List.replicate c.num_chunks none⟩

/-- `value_t get(size_t key) const`: the slot's value if the chunk is present,
`value_t()` otherwise; `none` models the fatal assertion of `chunk_for_key`. -/
def TLA.get {α : Type} [Inhabited α] (c : Config) (a : TLA α) (key : Nat) : Option α :=
  match c.chunk_for_key key with
  | none => none
  | some cid =>
    match a.chunks.getD cid none with
    | some ch => some (ch.values.getD (c.index_for_key key) default)
    | none => some default

/-- `void set(size_t key, value_t value)`: early return when the value is
falsy and the chunk handle is NULL; otherwise the chunk is taken (allocated
fresh if NULL), the slot and `count` are updated by `Chunk.write`, and the
chunk is deleted (handle set to NULL) when `count == 0` afterwards. -/
def TLA.set {α : Type} [Inhabited α] [DecidableEq α]
    (c : Config) (a : TLA α) (key : Nat) (value : α) : Option (TLA α) :=
  match c.chunk_for_key key with
  | none => none
  | some cid =>
    let chunk0 : Option (Chunk α) := a.chunks.getD cid none
    if !truthy value && chunk0.isNone then
      some a
    else
      let ch : Chunk α := Chunk.write (chunk0.getD (Chunk.mk0 α c)) (c.index_for_key key) value
      if ch.count = 0 then
        some ⟨a.chunks.set cid none⟩
      else
        some ⟨a.chunks.set cid (some ch)⟩

/-- Runs a list of `set` operations in order, propagating an abort. -/
def TLA.runSets {α : Type} [Inhabited α] [DecidableEq α]
    (c : Config) : TLA α → List (Nat × α) → Option (TLA α)
  | a, [] => some a
  | a, (k, v) :: ops =>
    match TLA.set c a k v with
    | none => none
    | some a' => TLA.runSets c a' ops

/-- The state of a `two_level_nevershrink_array_t`: chunk handles own only a
values array (no count). -/
structure NSA (α : Type) where
  chunks : List (Option (List α))
deriving DecidableEq

/-- The never-shrink constructor: all handles NULL. -/
def NSA.init (α : Type) [Inhabited α] (c : Config) : NSA α :=
  ⟨List.replicate c.num_chunks none⟩

/-- `value_t &operator[](size_t key)` used as a read: allocates the chunk on
first access; returns the slot's value together with the (possibly updated)
container state. -/
def NSA.index {α : Type} [Inhabited α] (c : Config) (a : NSA α) (key : Nat) :
    Option (α × NSA α) :=
  match c.chunk_for_key key with
  | none => none
  | some cid =>
    match a.chunks.getD cid none with
    | some vs => some (vs.getD (c.index_for_key key) default, a)
    | none =>
      let vs : List α := List.replicate c.chunk_size default
      some (vs.getD (c.index_for_key key) default, ⟨a.chunks.set cid (some vs)⟩)

/-- `container[key] = value`: `operator[]` used as an lvalue; the chunk is
allocated on first access and the slot overwritten through the reference. -/
def NSA.write {α : Type} [Inhabited α] (c : Config) (a : NSA α) (key : Nat) (value : α) :
    Option (NSA α) :=
  match c.chunk_for_key key with
  | none => none
  | some cid =>
    let vs : List α := (a.chunks.getD cid none).getD (List.replicate c.chunk_size default)
    some ⟨a.chunks.set cid (some (vs.set (c.index_for_key key) value))⟩

/-- Runs a list of writes through `operator[]` in order. -/
def NSA.runWrites {α : Type} [Inhabited α]
    (c : Config) : NSA α → List (Nat × α) → Option (NSA α)
  | a, [] => some a
  | a, (k, v) :: ops =>
    match NSA.write c a k v with
    | none => none
    | some a' => NSA.runWrites c a' ops

/-- Number of truthy slots of a values array. -/
def truthyCount {α : Type} [Inhabited α] [DecidableEq α] (l : List α) : Nat :=
  l.countP truthy

/-- Sanity of the template parameters as size_t constants: a positive chunk
size (the C++ code divides by it) and no wrap in `num_chunks`. -/
def Config.WF (c : Config) : Prop :=
  0 < c.chunk_size ∧ c.chunk_size < W ∧ c.max_size / c.chunk_size + 1 < W

/-- Well-formedness of one allocated chunk: the values array has exactly
`chunk_size` slots, `count` counts its truthy slots, and `count` is nonzero. -/
def Chunk.WF {α : Type} [Inhabited α] [DecidableEq α] (c : Config) (ch : Chunk α) : Prop :=
  ch.values.length = c.chunk_size ∧ ch.count = truthyCount ch.values ∧ ch.count ≠ 0

/-- Well-formedness of a shrinking-variant state: the outer table has
`num_chunks` handles and every allocated chunk is well-formed. -/
def TLA.WF {α : Type} [Inhabited α] [DecidableEq α] (c : Config) (a : TLA α) : Prop :=
  a.chunks.length = c.num_chunks ∧
  ∀ i ch, a.chunks.getD i none = some ch → Chunk.WF c ch

/-- Well-formedness of a never-shrink state: table length and slot counts. -/
def NSA.WF {α : Type} [Inhabited α] (c : Config) (a : NSA α) : Prop :=
  a.chunks.length = c.num_chunks ∧
  ∀ i vs, a.chunks.getD i none = some vs → vs.length = c.chunk_size

/-- The example configuration of the spec: `chunk_size = 4`, `max_size = 16`. -/
def cfg4 : Config := ⟨16, 4⟩

/-- The freshly constructed shrinking container over `cfg4` (values are Nat,
default 0). -/
def exInit : TLA Nat := TLA.init Nat cfg4

/-- The `cfg4` container after `set 5 1`: chunk 1 allocated, slot 1 holds 1. -/
def exOne : TLA Nat := ⟨[none, some ⟨1, [0, 1, 0, 0]⟩, none, none, none]⟩

/-- The `cfg4` container after `set 5 1; set 6 1`: chunk 1, slots 1 and 2. -/
def exTwo : TLA Nat := ⟨[none, some ⟨2, [0, 1, 1, 0]⟩, none, none, none]⟩

/-- The `cfg4` container after `set 5 1; set 6 2`: chunk 1, slots 1 and 2. -/
def exOne6 : TLA Nat := ⟨[none, some ⟨2, [0, 1, 2, 0]⟩, none, none, none]⟩

/-- The freshly constructed never-shrink container over `cfg4`. -/
def nsInit : NSA Nat := NSA.init Nat cfg4

/-- The `cfg4` never-shrink container after `container[5] = 1`. -/
def nsOne : NSA Nat := ⟨[none, some [0, 1, 0, 0], none, none, none]⟩

/- Sanity checks against the example scenario in the spec. -/
example : cfg4.num_chunks = 5 := by decide
example : TLA.set cfg4 exInit 5 1 = some exOne := by decide
example : TLA.get cfg4 exOne 5 = some 1 := by decide
example : TLA.set cfg4 exOne 5 0 = some exInit := by decide
example : TLA.get cfg4 exInit 16 = some 0 := by decide
example : TLA.get cfg4 exInit 20 = none := by decide
example : TLA.runSets cfg4 exInit [(5, 1), (6, 1)] = some exTwo := by decide

/-- `List.getD` of a replicated list at its own fallback value. -/
theorem getD_replicate {β : Type} (n i : Nat) (d : β) :
    (List.replicate n d).getD i d = d := by
  rw [List.getD_eq_getElem?_getD, List.getElem?_replicate]
  split <;> rfl

/-- `List.getD` after `List.set` at the written index. -/
theorem getD_set_self {β : Type} (l : List β) (i : Nat) (x d : β) (h : i < l.length) :
    (l.set i x).getD i d = x := by
  rw [List.getD_eq_getElem?_getD, List.getElem?_set_self h]
  rfl

/-- `List.getD` after `List.set` at a different index. -/
theorem getD_set_ne {β : Type} (l : List β) (i j : Nat) (x d : β) (h : i ≠ j) :
    (l.set i x).getD j d = l.getD j d := by
  rw [List.getD_eq_getElem?_getD, List.getElem?_set_ne h, ← List.getD_eq_getElem?_getD]

/-- How `List.countP` changes when one slot is overwritten. -/
theorem countP_set_add {β : Type} (p : β → Bool) (d : β) :
    ∀ (l : List β) (i : Nat) (x : β), i < l.length →
      (l.set i x).countP p + (if p (l.getD i d) then 1 else 0)
        = l.countP p + (if p x then 1 else 0)
  | [], i, x, h => by simp at h
  | b :: t, 0, x, h => by
    simp only [List.set_cons_zero, List.countP_cons, List.getD_cons_zero]
    omega
  | b :: t, i + 1, x, h => by
    have ih := countP_set_add p d t i x (by simpa using h)
    simp only [List.set_cons_succ, List.countP_cons, List.getD_cons_succ]
    omega

/-- Wrapped size_t decrement `(n + (W - 1)) % W` is plain `n - 1` for `1 ≤ n < W`. -/
theorem dec_mod {n : Nat} (h1 : 1 ≤ n) (h2 : n < W) : (n + (W - 1)) % W = n - 1 := by
  have hW : 1 ≤ W := by decide
  have h : n + (W - 1) = W + (n - 1) := by omega
  rw [h, Nat.add_mod_left, Nat.mod_eq_of_lt]
  omega

/-- A replicated default values array has no truthy slot. -/
theorem truthyCount_replicate {α : Type} [Inhabited α] [DecidableEq α] (n : Nat) :
    truthyCount (List.replicate n (default : α)) = 0 := by
  rw [truthyCount, List.countP_eq_zero]
  intro a ha
  have : a = default := List.eq_of_mem_replicate ha
  simp [truthy, this]

/-- Under `Config.WF`, `num_chunks` does not wrap. -/
theorem num_chunks_eq {c : Config} (hc : c.WF) :
    c.num_chunks = c.max_size / c.chunk_size + 1 := Nat.mod_eq_of_lt hc.2.2

/-- `chunk_for_key` succeeds exactly on the in-range chunk ids. -/
theorem chunk_for_key_eq {c : Config} {key : Nat}
    (h : key / c.chunk_size < c.num_chunks) :
    c.chunk_for_key key = some (key / c.chunk_size) := if_pos h

/-- Keys below `max_size` always map to an in-range chunk id. -/
theorem cid_lt {c : Config} (hc : c.WF) {key : Nat} (hk : key < c.max_size) :
    key / c.chunk_size < c.num_chunks := by
  have h1 : key / c.chunk_size ≤ c.max_size / c.chunk_size :=
    Nat.div_le_div_right (le_of_lt hk)
  have h2 := num_chunks_eq hc
  omega

/-- The values array is overwritten at `idx` by `Chunk.write`. -/
theorem Chunk.write_values {α : Type} [Inhabited α] [DecidableEq α]
    (ch : Chunk α) (idx : Nat) (v : α) :
    (Chunk.write ch idx v).values = ch.values.set idx v := by
  simp only [Chunk.write]

/-- Under the count invariant, `Chunk.write` keeps `count` equal to the
number of truthy slots (the wrapped size_t updates never actually wrap). -/
theorem Chunk.write_count {α : Type} [Inhabited α] [DecidableEq α] {c : Config}
    (hc : c.WF) (ch : Chunk α) (idx : Nat) (v : α)
    (hlen : ch.values.length = c.chunk_size)
    (hcount : ch.count = truthyCount ch.values)
    (hidx : idx < c.chunk_size) :
    (Chunk.write ch idx v).count = truthyCount (ch.values.set idx v) := by
  have hidx' : idx < ch.values.length := by omega
  have hmain := countP_set_add truthy default ch.values idx v hidx'
  have hle : List.countP truthy ch.values ≤ ch.values.length := List.countP_le_length _
  have hcs : c.chunk_size < W := hc.2.1
  rw [truthyCount] at hcount
  have hpos : truthy (ch.values.getD idx default) = true →
      1 ≤ List.countP truthy ch.values := by
    intro h
    rw [List.getD_eq_getElem _ _ hidx'] at h
    exact List.countP_pos_iff.mpr ⟨_, List.getElem_mem hidx', h⟩
  have hlt : truthy (ch.values.getD idx default) = false →
      List.countP truthy ch.values < ch.values.length := by
    intro h
    rcases Nat.lt_or_ge (List.countP truthy ch.values) ch.values.length with h' | h'
    · exact h'
    · exfalso
      have heq : List.countP truthy ch.values = ch.values.length := le_antisymm hle h'
      have hall := List.countP_eq_length.mp heq _ (List.getElem_mem hidx')
      rw [List.getD_eq_getElem _ _ hidx'] at h
      rw [hall] at h
      simp at h
  rw [truthyCount]
  simp only [Chunk.write]
  cases hold : truthy (ch.values.getD idx default) <;> cases hv : truthy v <;>
      simp only [hold, hv, Bool.false_eq_true, if_true, if_false, ite_true, ite_false] at hmain ⊢
  · -- old slot falsy, new value falsy: count unchanged
    omega
  · -- old slot falsy, new value truthy: count incremented without wrap
    have h1 := hlt hold
    rw [Nat.mod_eq_of_lt (by omega)]
    omega
  · -- old slot truthy, new value falsy: count decremented without wrap
    have h1 := hpos hold
    rw [dec_mod (by omega) (by omega)]
    omega
  · -- old slot truthy, new value truthy: decrement then increment
    have h1 := hpos hold
    rw [dec_mod (by omega) (by omega), Nat.mod_eq_of_lt (by omega)]
    omega

/-- The freshly constructed container is well-formed. -/
theorem TLA.init_WF {α : Type} [Inhabited α] [DecidableEq α] (c : Config) :
    TLA.WF c (TLA.init α c) := by
  constructor
  · simp [TLA.init]
  · intro i ch h
    rw [TLA.init] at h
    rw [getD_replicate] at h
    exact absurd h (by simp)

/-- One `set` preserves well-formedness of the shrinking container. -/
theorem TLA.set_WF {α : Type} [Inhabited α] [DecidableEq α] {c : Config} {a a' : TLA α}
    {key : Nat} {v : α} (hc : c.WF) (ha : TLA.WF c a)
    (h : TLA.set c a key v = some a') : TLA.WF c a' := by
  rw [TLA.set] at h
  cases hcfk : c.chunk_for_key key with
  | none => rw [hcfk] at h; exact absurd h (by simp)
  | some cid =>
    rw [hcfk] at h
    have hcid : cid < c.num_chunks := by
      rw [Config.chunk_for_key] at hcfk
      by_cases hlt : key / c.chunk_size < c.num_chunks
      · rw [if_pos hlt] at hcfk
        cases hcfk
        exact hlt
      · rw [if_neg hlt] at hcfk
        exact absurd hcfk (by simp)
    have hcidlen : cid < a.chunks.length := by rw [ha.1]; exact hcid
    simp only at h
    split at h
    · cases h
      exact ha
    · have hbase : (((a.chunks.getD cid none).getD (Chunk.mk0 α c)).values.length
          = c.chunk_size) ∧
          ((a.chunks.getD cid none).getD (Chunk.mk0 α c)).count
            = truthyCount ((a.chunks.getD cid none).getD (Chunk.mk0 α c)).values := by
        cases hch0 : a.chunks.getD cid none with
        | none =>
          constructor
          · simp [Chunk.mk0]
          · simp [Chunk.mk0, truthyCount_replicate]
        | some ch0 =>
          have hwf := ha.2 cid ch0 hch0
          exact ⟨hwf.1, hwf.2.1⟩
      have hidx : c.index_for_key key < c.chunk_size :=
        Nat.mod_lt _ hc.1
      have hwlen : (Chunk.write ((a.chunks.getD cid none).getD (Chunk.mk0 α c))
          (c.index_for_key key) v).values.length = c.chunk_size := by
        rw [Chunk.write_values, List.length_set]
        exact hbase.1
      have hwcount := Chunk.write_count hc ((a.chunks.getD cid none).getD (Chunk.mk0 α c))
        (c.index_for_key key) v hbase.1 hbase.2 hidx
      split at h
      · cases h
        constructor
        · simp only [List.length_set]
          exact ha.1
        · intro i ch hch
          by_cases hic : i = cid
          · rw [hic, getD_set_self _ _ _ _ hcidlen] at hch
            exact absurd hch (by simp)
          · rw [getD_set_ne _ _ _ _ _ (fun hh => hic hh.symm)] at hch
            exact ha.2 i ch hch
      · cases h
        constructor
        · simp only [List.length_set]
          exact ha.1
        · intro i ch hch
          by_cases hic : i = cid
          · rw [hic, getD_set_self _ _ _ _ hcidlen] at hch
            cases hch
            refine ⟨hwlen, ?_, ?_⟩
            · rw [hwcount, Chunk.write_values]
            · assumption
          · rw [getD_set_ne _ _ _ _ _ (fun hh => hic hh.symm)] at hch
            exact ha.2 i ch hch

/-- A value is falsy exactly when it is the default value. -/
theorem truthy_false_iff {α : Type} [Inhabited α] [DecidableEq α] (v : α) :
    truthy v = false ↔ v = default := by
  simp [truthy]

/-- In a values array with no truthy slot every lookup yields the default. -/
theorem getD_default_of_zero {α : Type} [Inhabited α] [DecidableEq α]
    {l : List α} (h : truthyCount l = 0) (i : Nat) :
    l.getD i default = default := by
  by_cases hi : i < l.length
  · have hf := List.countP_eq_zero.mp h _ (List.getElem_mem hi)
    rw [List.getD_eq_getElem _ _ hi]
    simpa [truthy] using hf
  · rw [List.getD_eq_getElem?_getD, List.getElem?_eq_none (by omega)]
    rfl

/-- Inversion of a successful `chunk_for_key`. -/
theorem chunk_for_key_some {c : Config} {key cid : Nat}
    (h : c.chunk_for_key key = some cid) :
    cid = key / c.chunk_size ∧ key / c.chunk_size < c.num_chunks := by
  rw [Config.chunk_for_key] at h
  by_cases hlt : key / c.chunk_size < c.num_chunks
  · rw [if_pos hlt] at h
    cases h
    exact ⟨rfl, hlt⟩
  · rw [if_neg hlt] at h
    exact absurd h (by simp)

/-- Two distinct keys of the same chunk have distinct slot indices. -/
theorem index_ne_of_same_chunk {c : Config}
    {key key' : Nat} (hne : key' ≠ key)
    (hdiv : key' / c.chunk_size = key / c.chunk_size) :
    key' % c.chunk_size ≠ key % c.chunk_size := by
  intro hmod
  apply hne
  have h1 := Nat.div_add_mod key' c.chunk_size
  have h2 := Nat.div_add_mod key c.chunk_size
  rw [hdiv, hmod] at h1
  omega

/-- Well-formedness after any successful sequence of sets. -/
theorem TLA.runSets_WF {α : Type} [Inhabited α] [DecidableEq α] {c : Config} (hc : c.WF) :
    ∀ (ops : List (Nat × α)) (a a' : TLA α), TLA.WF c a →
      TLA.runSets c a ops = some a' → TLA.WF c a'
  | [], a, a', ha, h => by
    simp only [TLA.runSets] at h
    cases h
    exact ha
  | (k, v) :: ops, a, a', ha, h => by
    simp only [TLA.runSets] at h
    cases hset : TLA.set c a k v with
    | none => rw [hset] at h; exact absurd h (by simp)
    | some a1 =>
      rw [hset] at h
      exact TLA.runSets_WF hc ops a1 a' (TLA.set_WF hc ha hset) h

/-- Any state reached from the fresh container is well-formed. -/
theorem TLA.reach_WF {α : Type} [Inhabited α] [DecidableEq α] {c : Config} (hc : c.WF)
    {ops : List (Nat × α)} {a : TLA α}
    (h : TLA.runSets c (TLA.init α c) ops = some a) : TLA.WF c a :=
  TLA.runSets_WF hc ops _ a (TLA.init_WF c) h

/-- `get` unfolded once the chunk id is known. -/
theorem TLA.get_eq {α : Type} [Inhabited α] {c : Config} (a : TLA α) {key cid : Nat}
    (hcfk : c.chunk_for_key key = some cid) :
    TLA.get c a key =
      (match a.chunks.getD cid none with
        | some ch => some (ch.values.getD (c.index_for_key key) default)
        | none => some default) := by
  rw [TLA.get, hcfk]

/-- After a successful `set`, `get` at the same key returns the written value. -/
theorem TLA.get_set_self {α : Type} [Inhabited α] [DecidableEq α] {c : Config}
    {a a' : TLA α} {key : Nat} {v : α} (hc : c.WF) (ha : TLA.WF c a)
    (h : TLA.set c a key v = some a') :
    TLA.get c a' key = some v := by
  rw [TLA.set] at h
  cases hcfk : c.chunk_for_key key with
  | none => rw [hcfk] at h; exact absurd h (by simp)
  | some cid =>
    rw [hcfk] at h
    obtain ⟨hcideq, hcidlt⟩ := chunk_for_key_some hcfk
    have hcidlen : cid < a.chunks.length := by rw [ha.1]; omega
    have hidx : c.index_for_key key < c.chunk_size := Nat.mod_lt _ hc.1
    simp only at h
    split at h
    · -- early return: falsy value into an absent chunk
      rename_i hcond
      rw [Bool.and_eq_true, Bool.not_eq_true', Option.isNone_iff_eq_none] at hcond
      cases h
      rw [TLA.get_eq a hcfk, hcond.2, (truthy_false_iff v).mp hcond.1]
    · have hbase : (((a.chunks.getD cid none).getD (Chunk.mk0 α c)).values.length
          = c.chunk_size) ∧
          ((a.chunks.getD cid none).getD (Chunk.mk0 α c)).count
            = truthyCount ((a.chunks.getD cid none).getD (Chunk.mk0 α c)).values := by
        cases hch0 : a.chunks.getD cid none with
        | none =>
          refine ⟨by simp [Chunk.mk0], by simp [Chunk.mk0, truthyCount_replicate]⟩
        | some ch0 =>
          have hwf := ha.2 cid ch0 hch0
          exact ⟨hwf.1, hwf.2.1⟩
      have hidxlen : c.index_for_key key <
          ((a.chunks.getD cid none).getD (Chunk.mk0 α c)).values.length := by omega
      have hwcount := Chunk.write_count hc ((a.chunks.getD cid none).getD (Chunk.mk0 α c))
        (c.index_for_key key) v hbase.1 hbase.2 hidx
      split at h
      · -- count hit zero: the chunk was deleted, and the written value is falsy
        rename_i hzero
        cases h
        rw [TLA.get_eq _ hcfk, getD_set_self _ _ _ _ hcidlen]
        have hv : v = default := by
          rw [hwcount] at hzero
          have hd := getD_default_of_zero hzero (c.index_for_key key)
          rw [getD_set_self _ _ _ _ hidxlen] at hd
          exact hd
        rw [hv]
      · -- the chunk stays allocated and holds the written value at the slot
        cases h
        rw [TLA.get_eq _ hcfk, getD_set_self _ _ _ _ hcidlen]
        dsimp only
        rw [Chunk.write_values, getD_set_self _ _ _ _ hidxlen]

/-- The values array of a freshly allocated chunk. -/
theorem Chunk.mk0_values {α : Type} [Inhabited α] (c : Config) :
    (Chunk.mk0 α c).values = List.replicate c.chunk_size default := rfl

/-- `get` aborts whenever `chunk_for_key` does, in any state. -/
theorem TLA.get_none {α : Type} [Inhabited α] {c : Config} (a : TLA α) {key : Nat}
    (h : c.chunk_for_key key = none) : TLA.get c a key = none := by
  rw [TLA.get, h]

/-- A successful `set` never changes `get` at any other key. -/
theorem TLA.get_set_frame {α : Type} [Inhabited α] [DecidableEq α] {c : Config}
    {a a' : TLA α} {key : Nat} {v : α} (hc : c.WF) (ha : TLA.WF c a)
    (h : TLA.set c a key v = some a') (key' : Nat) (hne : key' ≠ key) :
    TLA.get c a' key' = TLA.get c a key' := by
  rw [TLA.set] at h
  cases hcfk : c.chunk_for_key key with
  | none => rw [hcfk] at h; exact absurd h (by simp)
  | some cid =>
    rw [hcfk] at h
    obtain ⟨hcideq, hcidlt⟩ := chunk_for_key_some hcfk
    have hcidlen : cid < a.chunks.length := by rw [ha.1]; omega
    have hidx : c.index_for_key key < c.chunk_size := Nat.mod_lt _ hc.1
    simp only at h
    split at h
    · -- early return: the state is unchanged
      cases h
      rfl
    · rename_i hcond
      cases hcfk' : c.chunk_for_key key' with
      | none =>
        -- key' aborts in both states
        split at h <;> cases h <;> rw [TLA.get_none _ hcfk', TLA.get_none _ hcfk']
      | some cid' =>
        obtain ⟨hcideq', _⟩ := chunk_for_key_some hcfk'
        by_cases hcc : cid' = cid
        · -- same chunk: the other slot is untouched
          subst hcc
          have hdiv : key' / c.chunk_size = key / c.chunk_size := by omega
          have hidxne : c.index_for_key key' ≠ c.index_for_key key :=
            index_ne_of_same_chunk hne hdiv
          have hidxne' : c.index_for_key key ≠ c.index_for_key key' :=
            fun hh => hidxne hh.symm
          cases hch0 : a.chunks.getD cid' none with
          | none =>
            rw [hch0, Option.getD_none] at h
            split at h <;> cases h <;>
                rw [TLA.get_eq _ hcfk', TLA.get_eq _ hcfk', hch0]
            · -- fresh chunk written then immediately deleted again
              rw [getD_set_self _ _ _ _ hcidlen]
            · -- fresh chunk allocated: the other slot holds the default
              rw [getD_set_self _ _ _ _ hcidlen]
              dsimp only
              rw [Chunk.write_values, Chunk.mk0_values,
                getD_set_ne _ _ _ _ _ hidxne', getD_replicate]
          | some ch0 =>
            rw [hch0, Option.getD_some] at h
            have hwf0 := ha.2 cid' ch0 hch0
            have hidxlen : c.index_for_key key < ch0.values.length := by
              rw [hwf0.1]; exact hidx
            have hwcount := Chunk.write_count hc ch0 (c.index_for_key key) v
              hwf0.1 hwf0.2.1 hidx
            split at h
            · -- count hit zero: every remaining slot was already default
              rename_i hzero
              cases h
              rw [TLA.get_eq _ hcfk', TLA.get_eq _ hcfk', hch0,
                getD_set_self _ _ _ _ hcidlen]
              dsimp only
              rw [hwcount] at hzero
              have hd := getD_default_of_zero hzero (c.index_for_key key')
              rw [getD_set_ne _ _ _ _ _ hidxne'] at hd
              rw [hd]
            · cases h
              rw [TLA.get_eq _ hcfk', TLA.get_eq _ hcfk', hch0,
                getD_set_self _ _ _ _ hcidlen]
              dsimp only
              rw [Chunk.write_values, getD_set_ne _ _ _ _ _ hidxne']
        · -- a different chunk: its handle is untouched
          have hcc' : cid ≠ cid' := fun hh => hcc hh.symm
          split at h <;> cases h <;>
            rw [TLA.get_eq _ hcfk', TLA.get_eq _ hcfk', getD_set_ne _ _ _ _ _ hcc']

/-- In the fresh container every in-capacity `get` yields the default value. -/
theorem TLA.get_init {α : Type} [Inhabited α] [DecidableEq α] {c : Config} {key : Nat}
    (hk : key / c.chunk_size < c.num_chunks) :
    TLA.get c (TLA.init α c) key = some default := by
  rw [TLA.get_eq _ (chunk_for_key_eq hk), TLA.init, getD_replicate]

/-- Sets that never target `key` do not change `get` at `key`. -/
theorem TLA.runSets_get_untouched {α : Type} [Inhabited α] [DecidableEq α] {c : Config}
    (hc : c.WF) :
    ∀ (ops : List (Nat × α)) (a a' : TLA α), TLA.WF c a →
      TLA.runSets c a ops = some a' → ∀ key, (∀ p ∈ ops, p.1 ≠ key) →
      TLA.get c a' key = TLA.get c a key
  | [], a, a', _, h, key, _ => by
    simp only [TLA.runSets] at h
    cases h
    rfl
  | (k, v) :: ops, a, a', ha, h, key, hk => by
    simp only [TLA.runSets] at h
    cases hset : TLA.set c a k v with
    | none => rw [hset] at h; exact absurd h (by simp)
    | some a1 =>
      rw [hset] at h
      have hrest := TLA.runSets_get_untouched hc ops a1 a' (TLA.set_WF hc ha hset) h key
        (fun p hp => hk p (List.mem_cons_of_mem _ hp))
      have hone := TLA.get_set_frame hc ha hset
        key (fun hh => hk (k, v) (List.mem_cons_self _ _) hh.symm)
      rw [hrest, hone]

/-- A values array all of whose lookups are default has no truthy slot. -/
theorem truthyCount_zero_of_all {α : Type} [Inhabited α] [DecidableEq α] {l : List α}
    (h : ∀ j, j < l.length → l.getD j default = default) : truthyCount l = 0 := by
  rw [truthyCount, List.countP_eq_zero]
  intro x hx
  obtain ⟨j, hj, hxe⟩ := List.mem_iff_getElem.mp hx
  have hd := h j hj
  rw [List.getD_eq_getElem _ _ hj, hxe] at hd
  simp [truthy, hd]

/-- `chunk_for_key` fails exactly on out-of-range chunk ids. -/
theorem chunk_for_key_none_iff (c : Config) (key : Nat) :
    c.chunk_for_key key = none ↔ c.num_chunks ≤ key / c.chunk_size := by
  rw [Config.chunk_for_key]
  by_cases hlt : key / c.chunk_size < c.num_chunks
  · rw [if_pos hlt]
    constructor
    · intro h; exact absurd h (by simp)
    · omega
  · rw [if_neg hlt]
    constructor
    · intro _; omega
    · intro _; rfl

/-- Within the outer-table range, `set` always succeeds. -/
theorem TLA.set_some {α : Type} [Inhabited α] [DecidableEq α] (c : Config) (a : TLA α)
    (key : Nat) (v : α) (h : key / c.chunk_size < c.num_chunks) :
    ∃ a', TLA.set c a key v = some a' := by
  rw [TLA.set, chunk_for_key_eq h]
  simp only
  split
  · exact ⟨a, rfl⟩
  · split
    · exact ⟨_, rfl⟩
    · exact ⟨_, rfl⟩

/-- `get` aborts exactly on out-of-range chunk ids. -/
theorem TLA.get_none_iff {α : Type} [Inhabited α] (c : Config) (a : TLA α) (key : Nat) :
    TLA.get c a key = none ↔ c.num_chunks ≤ key / c.chunk_size := by
  rw [← chunk_for_key_none_iff]
  cases hcfk : c.chunk_for_key key with
  | none => simp [TLA.get, hcfk]
  | some cid =>
    rw [TLA.get_eq _ hcfk]
    cases hch : a.chunks.getD cid none <;> simp

/-- `set` aborts exactly on out-of-range chunk ids. -/
theorem TLA.set_none_iff {α : Type} [Inhabited α] [DecidableEq α]
    (c : Config) (a : TLA α) (key : Nat) (v : α) :
    TLA.set c a key v = none ↔ c.num_chunks ≤ key / c.chunk_size := by
  constructor
  · intro h
    by_cases hlt : key / c.chunk_size < c.num_chunks
    · obtain ⟨a', ha'⟩ := TLA.set_some c a key v hlt
      rw [ha'] at h
      exact absurd h (by simp)
    · omega
  · intro h
    rw [TLA.set, (chunk_for_key_none_iff c key).mpr h]

/-- `operator[]` (read form) aborts exactly on out-of-range chunk ids. -/
theorem NSA.index_none_iff {α : Type} [Inhabited α] (c : Config) (b : NSA α) (key : Nat) :
    NSA.index c b key = none ↔ c.num_chunks ≤ key / c.chunk_size := by
  rw [← chunk_for_key_none_iff]
  cases hcfk : c.chunk_for_key key with
  | none => simp [NSA.index, hcfk]
  | some cid =>
    rw [NSA.index, hcfk]
    dsimp only
    cases hch : b.chunks.getD cid none <;> simp

/-- `operator[]` (write form) aborts exactly on out-of-range chunk ids. -/
theorem NSA.write_none_iff {α : Type} [Inhabited α]
    (c : Config) (b : NSA α) (key : Nat) (v : α) :
    NSA.write c b key v = none ↔ c.num_chunks ≤ key / c.chunk_size := by
  rw [← chunk_for_key_none_iff]
  cases hcfk : c.chunk_for_key key with
  | none => simp [NSA.write, hcfk]
  | some cid => rw [NSA.write, hcfk]; simp

/-- The fresh never-shrink container is well-formed. -/
theorem NSA.initial_WF {α : Type} [Inhabited α] (c : Config) : NSA.WF c (NSA.init α c) := by
  constructor
  · simp [NSA.init]
  · intro i vs h
    rw [NSA.init] at h
    rw [getD_replicate] at h
    exact absurd h (by simp)

/-- One `operator[]` write keeps every already-allocated chunk allocated. -/
theorem NSA.write_keeps {α : Type} [Inhabited α] {c : Config} {b b' : NSA α}
    {k2 : Nat} {v2 : α} (h : NSA.write c b k2 v2 = some b') {i : Nat}
    (hi : b.chunks.getD i none ≠ none) : b'.chunks.getD i none ≠ none := by
  rw [NSA.write] at h
  cases hcfk : c.chunk_for_key k2 with
  | none => rw [hcfk] at h; exact absurd h (by simp)
  | some cid2 =>
    rw [hcfk] at h
    simp only at h
    cases h
    by_cases hic : i = cid2
    · subst hic
      by_cases hlen : i < b.chunks.length
      · rw [getD_set_self _ _ _ _ hlen]
        simp
      · rw [List.set_eq_of_length_le (by omega)]
        exact hi
    · rw [getD_set_ne _ _ _ _ _ (fun hh => hic hh.symm)]
      exact hi

/-- Any sequence of writes keeps every already-allocated chunk allocated. -/
theorem NSA.runWrites_keeps {α : Type} [Inhabited α] {c : Config} :
    ∀ (ops : List (Nat × α)) (b b' : NSA α), NSA.runWrites c b ops = some b' →
      ∀ i, b.chunks.getD i none ≠ none → b'.chunks.getD i none ≠ none
  | [], b, b', h, i, hi => by
    simp only [NSA.runWrites] at h
    cases h
    exact hi
  | (k2, v2) :: ops, b, b', h, i, hi => by
    simp only [NSA.runWrites] at h
    cases hw : NSA.write c b k2 v2 with
    | none => rw [hw] at h; exact absurd h (by simp)
    | some b1 =>
      rw [hw] at h
      exact NSA.runWrites_keeps ops b1 b' h i (NSA.write_keeps hw hi)

/-- The example configuration satisfies the parameter sanity conditions. -/
theorem cfg4_WF : cfg4.WF := ⟨by decide, by decide, by decide⟩

/-- C1: shrinking variant: for every key within capacity and every value v,
after any sequence of sets, `set(k, v)` followed by `get(k)` returns v. -/
theorem claim_set_get_roundtrip {α : Type} [Inhabited α] [DecidableEq α] {c : Config}
    (hc : c.WF) {ops : List (Nat × α)} {a : TLA α}
    (hreach : TLA.runSets c (TLA.init α c) ops = some a)
    {key : Nat} (hkey : key < c.max_size) {v : α} {a' : TLA α}
    (hset : TLA.set c a key v = some a') :
    TLA.get c a' key = some v :=
  TLA.get_set_self hc (TLA.reach_WF hc hreach) hset

/-- C1 witness: `set(5, 1)` on the fresh `cfg4` container, then `get 5 = 1`. -/
theorem claim_set_get_roundtrip_witness : TLA.get cfg4 exOne 5 = some 1 :=
  claim_set_get_roundtrip cfg4_WF (by decide : TLA.runSets cfg4 (TLA.init Nat cfg4) []
    = some exInit) (by decide) (by decide : TLA.set cfg4 exInit 5 1 = some exOne)

/-- C2: shrinking variant global invariant: after any sequence of sets,
`get(key)` is the default value iff the owning chunk is absent or the slot in
the allocated chunk holds the default value. -/
theorem claim_global_invariant {α : Type} [Inhabited α] [DecidableEq α] {c : Config}
    (hc : c.WF) {ops : List (Nat × α)} {a : TLA α}
    (hreach : TLA.runSets c (TLA.init α c) ops = some a)
    {key : Nat} (hkey : key < c.max_size) :
    TLA.get c a key = some default ↔
      (a.chunks.getD (key / c.chunk_size) none = none ∨
       ∃ ch, a.chunks.getD (key / c.chunk_size) none = some ch ∧
         ch.values.getD (c.index_for_key key) default = default) := by
  clear hreach
  rw [TLA.get_eq _ (chunk_for_key_eq (cid_lt hc hkey))]
  cases hch : a.chunks.getD (key / c.chunk_size) none with
  | none => simp
  | some ch => simp

/-- C2 witness: in the container holding 1 at key 5, both sides are false. -/
theorem claim_global_invariant_witness :
    TLA.get cfg4 exOne 5 = some 0 ↔
      (exOne.chunks.getD (5 / cfg4.chunk_size) none = none ∨
       ∃ ch, exOne.chunks.getD (5 / cfg4.chunk_size) none = some ch ∧
         ch.values.getD (cfg4.index_for_key 5) 0 = 0) :=
  claim_global_invariant cfg4_WF
    (by decide : TLA.runSets cfg4 (TLA.init Nat cfg4) [(5, 1)] = some exOne) (by decide)

/-- C3: shrinking variant count invariant: after any sequence of sets, every
allocated chunk's count equals the number of truthy slots and is nonzero
(a chunk whose count reaches zero has been destroyed and its handle cleared). -/
theorem claim_count_invariant {α : Type} [Inhabited α] [DecidableEq α] {c : Config}
    (hc : c.WF) {ops : List (Nat × α)} {a : TLA α}
    (hreach : TLA.runSets c (TLA.init α c) ops = some a) :
    ∀ i ch, a.chunks.getD i none = some ch →
      ch.count = truthyCount ch.values ∧ ch.count ≠ 0 :=
  fun i ch hch =>
    ⟨((TLA.reach_WF hc hreach).2 i ch hch).2.1, ((TLA.reach_WF hc hreach).2 i ch hch).2.2⟩

/-- C3 witness: the single allocated chunk after `set(5, 1)` has count 1. -/
theorem claim_count_invariant_witness :
    (1 : Nat) = truthyCount [(0 : Nat), 1, 0, 0] ∧ (1 : Nat) ≠ 0 :=
  claim_count_invariant cfg4_WF
    (by decide : TLA.runSets cfg4 (TLA.init Nat cfg4) [(5, 1)] = some exOne)
    1 ⟨1, [0, 1, 0, 0]⟩ (by decide)

/-- C4: shrinking variant: `set(k, default)` on a key whose chunk is absent
allocates nothing and returns the container state unchanged, and `get(k)`
still yields the default value. -/
theorem claim_default_noop {α : Type} [Inhabited α] [DecidableEq α] {c : Config}
    (hc : c.WF) {a : TLA α} {key : Nat} (hkey : key < c.max_size)
    (habsent : a.chunks.getD (key / c.chunk_size) none = none) :
    TLA.set c a key (default : α) = some a ∧ TLA.get c a key = some default := by
  have ht : truthy (default : α) = false := by simp [truthy]
  constructor
  · rw [TLA.set, chunk_for_key_eq (cid_lt hc hkey)]
    simp only
    rw [if_pos]
    rw [habsent, ht]
    rfl
  · rw [TLA.get_eq _ (chunk_for_key_eq (cid_lt hc hkey)), habsent]

/-- C4 witness: clearing never-written key 0 leaves the container as is. -/
theorem claim_default_noop_witness :
    TLA.set cfg4 exOne 0 0 = some exOne ∧ TLA.get cfg4 exOne 0 = some 0 :=
  claim_default_noop cfg4_WF (by decide) (by decide)

/-- C5: shrinking variant release timing: clearing a key of an allocated chunk
yields the default on a subsequent get, and the chunk's handle becomes absent
exactly when no other key of that chunk held a non-default value. -/
theorem claim_release_timing {α : Type} [Inhabited α] [DecidableEq α] {c : Config}
    (hc : c.WF) {ops : List (Nat × α)} {a : TLA α}
    (hreach : TLA.runSets c (TLA.init α c) ops = some a)
    {key : Nat} (hkey : key < c.max_size) {ch0 : Chunk α}
    (hch0 : a.chunks.getD (key / c.chunk_size) none = some ch0)
    {a' : TLA α} (hset : TLA.set c a key (default : α) = some a') :
    TLA.get c a' key = some default ∧
      (a'.chunks.getD (key / c.chunk_size) none = none ↔
        ∀ key', key' / c.chunk_size = key / c.chunk_size → key' ≠ key →
          TLA.get c a key' = some default) := by
  have ha := TLA.reach_WF hc hreach
  have hcid := cid_lt hc hkey
  have hcidlen : key / c.chunk_size < a.chunks.length := by rw [ha.1]; omega
  have hidx : c.index_for_key key < c.chunk_size := Nat.mod_lt _ hc.1
  have hwf0 := ha.2 _ ch0 hch0
  have hidxlen : c.index_for_key key < ch0.values.length := by rw [hwf0.1]; exact hidx
  have hwcount := Chunk.write_count hc ch0 (c.index_for_key key) (default : α)
    hwf0.1 hwf0.2.1 hidx
  refine ⟨TLA.get_set_self hc ha hset, ?_⟩
  rw [TLA.set, chunk_for_key_eq hcid] at hset
  simp only at hset
  split at hset
  · rename_i hcond
    rw [Bool.and_eq_true, Option.isNone_iff_eq_none] at hcond
    rw [hch0] at hcond
    exact absurd hcond.2 (by simp)
  · rw [hch0, Option.getD_some] at hset
    split at hset
    · -- the count hit zero: the handle is cleared, every other slot was default
      rename_i hzero
      cases hset
      rw [hwcount] at hzero
      rw [getD_set_self _ _ _ _ hcidlen]
      constructor
      · intro _ key' hdiv hne
        have hcid' : key' / c.chunk_size < c.num_chunks := by rw [hdiv]; exact hcid
        rw [TLA.get_eq _ (chunk_for_key_eq hcid'), hdiv, hch0]
        dsimp only
        have hidxne : c.index_for_key key ≠ c.index_for_key key' :=
          fun hh => (index_ne_of_same_chunk hne hdiv) hh.symm
        have hd := getD_default_of_zero hzero (c.index_for_key key')
        rw [getD_set_ne _ _ _ _ _ hidxne] at hd
        rw [hd]
      · intro _
        rfl
    · -- the count stayed positive: some other slot was non-default
      rename_i hnonzero
      cases hset
      rw [getD_set_self _ _ _ _ hcidlen]
      constructor
      · intro hl
        exact absurd hl (by simp)
      · intro hall
        exfalso
        apply hnonzero
        rw [hwcount]
        apply truthyCount_zero_of_all
        intro j hj
        rw [List.length_set] at hj
        by_cases hji : j = c.index_for_key key
        · subst hji
          rw [getD_set_self _ _ _ _ hj]
        · rw [getD_set_ne _ _ _ _ _ (fun hh => hji hh.symm)]
          have hjlt : j < c.chunk_size := by rw [← hwf0.1]; exact hj
          have hkdiv : (c.chunk_size * (key / c.chunk_size) + j) / c.chunk_size
              = key / c.chunk_size := by
            rw [Nat.mul_add_div hc.1, Nat.div_eq_of_lt hjlt]
            omega
          have hkmod : (c.chunk_size * (key / c.chunk_size) + j) % c.chunk_size = j := by
            rw [Nat.mul_add_mod, Nat.mod_eq_of_lt hjlt]
          have hne' : c.chunk_size * (key / c.chunk_size) + j ≠ key := by
            intro hh
            apply hji
            have hmod := congrArg (fun t => t % c.chunk_size) hh
            simp only at hmod
            rw [hkmod] at hmod
            exact hmod
          have hgk := hall (c.chunk_size * (key / c.chunk_size) + j) hkdiv hne'
          rw [TLA.get_eq _ (chunk_for_key_eq (by rw [hkdiv]; exact hcid)),
            hkdiv, hch0] at hgk
          dsimp only at hgk
          rw [Config.index_for_key, hkmod] at hgk
          rw [Option.some.injEq] at hgk
          exact hgk

/-- C5 witness: with keys 5 and 6 held, clearing key 5 leaves the chunk
allocated (key 6 still holds 1, so both iff sides are false). -/
theorem claim_release_timing_witness :
    TLA.get cfg4 (⟨[none, some ⟨1, [0, 0, 1, 0]⟩, none, none, none]⟩ : TLA Nat) 5
        = some 0 ∧
      ((⟨[none, some ⟨1, [0, 0, 1, 0]⟩, none, none, none]⟩ : TLA Nat).chunks.getD
          (5 / cfg4.chunk_size) none = none ↔
        ∀ key', key' / cfg4.chunk_size = 5 / cfg4.chunk_size → key' ≠ 5 →
          TLA.get cfg4 exTwo key' = some 0) :=
  claim_release_timing cfg4_WF
    (by decide : TLA.runSets cfg4 (TLA.init Nat cfg4) [(5, 1), (6, 1)] = some exTwo)
    (by decide) (by decide : exTwo.chunks.getD (5 / cfg4.chunk_size) none
      = some ⟨2, [0, 1, 1, 0]⟩)
    (by decide : TLA.set cfg4 exTwo 5 0
      = some ⟨[none, some ⟨1, [0, 0, 1, 0]⟩, none, none, none]⟩)

/-- C6 counterexample: key 16 is at capacity (`max_size = 16`) yet neither
`get` nor `set` nor the never-shrink `operator[]` aborts on it, because
`16 / 4 = 4 < num_chunks = 5`. -/
theorem claim_abort_iff_counterexample :
    cfg4.max_size ≤ 16 ∧ TLA.get cfg4 exInit 16 = some 0 ∧
      TLA.set cfg4 exInit 16 1 ≠ none ∧ NSA.index cfg4 nsInit 16 ≠ none := by decide

/-- C6 amended: an access through `get`, `set` or `operator[]` aborts if and
only if `key / chunk_size ≥ num_chunks` (with `num_chunks = max_size /
chunk_size + 1`); every key below `max_size` is accepted, but so are the keys
at or beyond `max_size` that still fall into the last chunk's slack. -/
theorem claim_abort_condition {α : Type} [Inhabited α] [DecidableEq α]
    (c : Config) (a : TLA α) (b : NSA α) (key : Nat) (v : α) :
    (TLA.get c a key = none ↔ c.num_chunks ≤ key / c.chunk_size) ∧
    (TLA.set c a key v = none ↔ c.num_chunks ≤ key / c.chunk_size) ∧
    (NSA.index c b key = none ↔ c.num_chunks ≤ key / c.chunk_size) ∧
    (NSA.write c b key v = none ↔ c.num_chunks ≤ key / c.chunk_size) ∧
    (c.WF → key < c.max_size → ¬ c.num_chunks ≤ key / c.chunk_size) :=
  ⟨TLA.get_none_iff c a key, TLA.set_none_iff c a key v, NSA.index_none_iff c b key,
   NSA.write_none_iff c b key v, fun hc hk => by have := cid_lt hc hk; omega⟩

/-- C6 amended witness: at key 20 every operation of the `cfg4` containers
aborts, and the in-capacity guard is available at the concrete parameters. -/
theorem claim_abort_condition_witness :
    (TLA.get cfg4 exInit 20 = none ↔ cfg4.num_chunks ≤ 20 / cfg4.chunk_size) ∧
    (TLA.set cfg4 exInit 20 1 = none ↔ cfg4.num_chunks ≤ 20 / cfg4.chunk_size) ∧
    (NSA.index cfg4 nsInit 20 = none ↔ cfg4.num_chunks ≤ 20 / cfg4.chunk_size) ∧
    (NSA.write cfg4 nsInit 20 1 = none ↔ cfg4.num_chunks ≤ 20 / cfg4.chunk_size) ∧
    (cfg4.WF → 20 < cfg4.max_size → ¬ cfg4.num_chunks ≤ 20 / cfg4.chunk_size) :=
  claim_abort_condition cfg4 exInit nsInit 20 1

/-- C7 counterexample: at `max_size = 16`, `chunk_size = 4` the outer table
has 5 entries while `ceil(16 / 4) = 4`. -/
theorem claim_num_chunks_counterexample :
    cfg4.num_chunks = 5 ∧ (cfg4.max_size + cfg4.chunk_size - 1) / cfg4.chunk_size = 4 := by
  decide

/-- C7 amended: `num_chunks` is the floor `max_size / chunk_size` plus one.
That is at least `ceil(max_size / chunk_size)`; it equals the ceiling exactly
when `chunk_size` does not divide `max_size`, and exceeds it by one when it
does. -/
theorem claim_num_chunks_formula {c : Config} (hc : c.WF) :
    c.num_chunks = c.max_size / c.chunk_size + 1 ∧
    (c.max_size + c.chunk_size - 1) / c.chunk_size ≤ c.num_chunks ∧
    (¬ c.chunk_size ∣ c.max_size →
      c.num_chunks = (c.max_size + c.chunk_size - 1) / c.chunk_size) ∧
    (c.chunk_size ∣ c.max_size →
      c.num_chunks = (c.max_size + c.chunk_size - 1) / c.chunk_size + 1) := by
  have h0 := num_chunks_eq hc
  have hpos := hc.1
  have hdvd : c.chunk_size ∣ c.max_size →
      (c.max_size + c.chunk_size - 1) / c.chunk_size = c.max_size / c.chunk_size := by
    intro hd
    obtain ⟨q, hq⟩ := hd
    have he : c.max_size + c.chunk_size - 1 = c.chunk_size * q + (c.chunk_size - 1) := by
      omega
    have hcalc : (c.chunk_size * q + (c.chunk_size - 1)) / c.chunk_size
        = q + (c.chunk_size - 1) / c.chunk_size := Nat.mul_add_div hpos _ _
    have hz : (c.chunk_size - 1) / c.chunk_size = 0 := Nat.div_eq_of_lt (by omega)
    have hq' : c.max_size / c.chunk_size = q := by
      rw [hq]
      exact Nat.mul_div_cancel_left _ hpos
    rw [he, hcalc, hz, hq']
    omega
  have hndvd : ¬ c.chunk_size ∣ c.max_size →
      (c.max_size + c.chunk_size - 1) / c.chunk_size = c.max_size / c.chunk_size + 1 := by
    intro hd
    have hdm := Nat.div_add_mod c.max_size c.chunk_size
    have hr : c.max_size % c.chunk_size ≠ 0 := fun h => hd (Nat.dvd_of_mod_eq_zero h)
    have hrlt : c.max_size % c.chunk_size < c.chunk_size := Nat.mod_lt _ hpos
    have hms : c.chunk_size * (c.max_size / c.chunk_size + 1)
        = c.chunk_size * (c.max_size / c.chunk_size) + c.chunk_size := Nat.mul_succ _ _
    have he : c.max_size + c.chunk_size - 1
        = c.chunk_size * (c.max_size / c.chunk_size + 1)
          + (c.max_size % c.chunk_size - 1) := by
      omega
    have hcalc : (c.chunk_size * (c.max_size / c.chunk_size + 1)
          + (c.max_size % c.chunk_size - 1)) / c.chunk_size
        = (c.max_size / c.chunk_size + 1)
          + (c.max_size % c.chunk_size - 1) / c.chunk_size := Nat.mul_add_div hpos _ _
    have hz : (c.max_size % c.chunk_size - 1) / c.chunk_size = 0 :=
      Nat.div_eq_of_lt (by omega)
    rw [he, hcalc, hz]
  refine ⟨h0, ?_, fun hd => by rw [h0, hndvd hd], fun hd => by rw [h0, hdvd hd]⟩
  by_cases hd : c.chunk_size ∣ c.max_size
  · rw [hdvd hd]
    omega
  · rw [hndvd hd]
    omega

/-- C7 amended witness: the formula evaluated at the example parameters. -/
theorem claim_num_chunks_formula_witness :
    cfg4.num_chunks = cfg4.max_size / cfg4.chunk_size + 1 ∧
    (cfg4.max_size + cfg4.chunk_size - 1) / cfg4.chunk_size ≤ cfg4.num_chunks ∧
    (¬ cfg4.chunk_size ∣ cfg4.max_size →
      cfg4.num_chunks = (cfg4.max_size + cfg4.chunk_size - 1) / cfg4.chunk_size) ∧
    (cfg4.chunk_size ∣ cfg4.max_size →
      cfg4.num_chunks = (cfg4.max_size + cfg4.chunk_size - 1) / cfg4.chunk_size + 1) :=
  claim_num_chunks_formula cfg4_WF

/-- C8: never-shrink variant: writing v through `operator[]` and reading the
same key back yields v, and once the chunk owning the key is allocated it
stays allocated across any later sequence of writes, defaults included. -/
theorem claim_nevershrink_persist {α : Type} [Inhabited α] [DecidableEq α] {c : Config}
    (hc : c.WF) {a : NSA α} (ha : NSA.WF c a) {key : Nat} (hkey : key < c.max_size)
    {v : α} {a' : NSA α} (hw : NSA.write c a key v = some a') :
    NSA.index c a' key = some (v, a') ∧
    ∀ ops a'', NSA.runWrites c a' ops = some a'' →
      a''.chunks.getD (key / c.chunk_size) none ≠ none := by
  have hcid := cid_lt hc hkey
  have hcidlen : key / c.chunk_size < a.chunks.length := by rw [ha.1]; omega
  have hidx : c.index_for_key key < c.chunk_size := Nat.mod_lt _ hc.1
  rw [NSA.write, chunk_for_key_eq hcid] at hw
  simp only at hw
  have hbaselen : ((a.chunks.getD (key / c.chunk_size) none).getD
      (List.replicate c.chunk_size default)).length = c.chunk_size := by
    cases hch : a.chunks.getD (key / c.chunk_size) none with
    | none => simp
    | some vs =>
      rw [Option.getD_some]
      exact ha.2 _ vs hch
  cases hw
  constructor
  · rw [NSA.index, chunk_for_key_eq hcid]
    dsimp only
    rw [getD_set_self _ _ _ _ hcidlen]
    dsimp only
    rw [getD_set_self _ _ _ _ (by rw [hbaselen]; exact hidx)]
  · intro ops a'' hrun
    apply NSA.runWrites_keeps ops _ a'' hrun
    rw [getD_set_self _ _ _ _ hcidlen]
    simp

/-- C8 witness: `container[5] = 1` on the fresh never-shrink container, then
reading key 5 gives 1, and the chunk survives later writes. -/
theorem claim_nevershrink_persist_witness :
    NSA.index cfg4 nsOne 5 = some (1, nsOne) ∧
    ∀ ops a'', NSA.runWrites cfg4 nsOne ops = some a'' →
      a''.chunks.getD (5 / cfg4.chunk_size) none ≠ none :=
  claim_nevershrink_persist cfg4_WF (NSA.initial_WF cfg4) (by decide)
    (by decide : NSA.write cfg4 nsInit 5 1 = some nsOne)

/-- C9: shrinking variant: a key within capacity that no set ever targeted
reads back as the default value after any successful sequence of sets. -/
theorem claim_get_unwritten {α : Type} [Inhabited α] [DecidableEq α] {c : Config}
    (hc : c.WF) {ops : List (Nat × α)} {a : TLA α}
    (hreach : TLA.runSets c (TLA.init α c) ops = some a)
    {key : Nat} (hkey : key < c.max_size) (huntouched : ∀ p ∈ ops, p.1 ≠ key) :
    TLA.get c a key = some default := by
  rw [TLA.runSets_get_untouched hc ops _ a (TLA.init_WF c) hreach key huntouched]
  exact TLA.get_init (cid_lt hc hkey)

/-- C9 witness: after `set(5, 1)`, the never-written key 4 reads as 0. -/
theorem claim_get_unwritten_witness : TLA.get cfg4 exOne 4 = some 0 :=
  claim_get_unwritten cfg4_WF
    (by decide : TLA.runSets cfg4 (TLA.init Nat cfg4) [(5, 1)] = some exOne)
    (by decide) (by decide)

/-- C10: shrinking variant frame property: a successful `set` on one key
leaves `get` unchanged at every other key within capacity. -/
theorem claim_set_frame {α : Type} [Inhabited α] [DecidableEq α] {c : Config}
    (hc : c.WF) {ops : List (Nat × α)} {a : TLA α}
    (hreach : TLA.runSets c (TLA.init α c) ops = some a)
    {key key' : Nat} (hne : key' ≠ key)
    (hkey : key < c.max_size) (hkey' : key' < c.max_size)
    {v : α} {a' : TLA α} (hset : TLA.set c a key v = some a') :
    TLA.get c a' key' = TLA.get c a key' :=
  TLA.get_set_frame hc (TLA.reach_WF hc hreach) hset key' hne

/-- C10 witness: `set(6, 2)` does not change the value observed at key 5. -/
theorem claim_set_frame_witness : TLA.get cfg4 exOne6 5 = TLA.get cfg4 exOne 5 :=
  claim_set_frame cfg4_WF
    (by decide : TLA.runSets cfg4 (TLA.init Nat cfg4) [(5, 1)] = some exOne)
    (by decide) (by decide) (by decide)
    (by decide : TLA.set cfg4 exOne 6 2 = some exOne6)

end TwoLevelArray
